import Mathlib

/-
Verification of the TaskFlow backend's hierarchy and assignment-lifecycle
logic.  The definitions below are a shallow embedding of the Python code in
`backend/app/routers/` (subdepartments.py, task_assignments.py, tasks.py,
analytics.py, department_stats.py): SQL tables become lists of records,
endpoint handlers become pure functions from the table state to an
`ApiResult` carrying the HTTP status code and the post-call state, and
Python's unbounded recursion is represented with an explicit fuel parameter
(`none` = the recursion exceeds every finite depth, i.e. the Python call
never returns).  Real (float) arithmetic is modelled exactly over `ℚ`.
-/

namespace TaskFlow

/-- Task priority enum (`priority_enum` values Critical/High/Medium/Low). -/
inductive Priority where
  | critical
  | high
  | medium
  | low
deriving DecidableEq, Repr

/-- Assignment status enum (`task_status_enum` values
"To Do" / "In Progress" / "Under Review" / "Completed"). -/
inductive AStatus where
  | toDo
  | inProgress
  | underReview
  | completed
deriving DecidableEq, Repr

/-- Result of one endpoint call: HTTP status code plus the table state after
the call (an exception raised before commit leaves the state unchanged). -/
structure ApiResult (σ : Type) where
  code : Nat
  state : σ
deriving DecidableEq, Repr

/-- A row of the `subdepartments` table (the fields the verified endpoints
read or write). -/
structure Subdept where
  id : Nat
  department_id : Nat
  parent_id : Option Nat
deriving DecidableEq, Repr

/-- The `subdepartments` table. -/
abbrev SubdeptDb := List Subdept

/-- The ids of the direct children of `x`: the query
`db.query(SubDepartment).filter(SubDepartment.parent_id == subdept_id)`
in `get_all_descendant_ids`, projected to ids. -/
def childIds (db : SubdeptDb) (x : Nat) : List Nat :=
  (db.filter (fun s => decide (s.parent_id = some x))).map (fun s => s.id)

/-- The `for child in children` loop of `get_all_descendant_ids`: each child
id is appended and then its recursive expansion (computed by `expand`) is
spliced in; a failing expansion makes the whole loop fail. -/
def descendList (expand : Nat → Option (List Nat)) : List Nat → Option (List Nat)
  | [] => some []
  | c :: cs =>
    match expand c, descendList expand cs with
    | some ds, some rest => some (c :: (ds ++ rest))
    | _, _ => none

/-- Fuel-indexed traversal underlying `get_all_descendant_ids`
(subdepartments.py:276-287).  The Python function does, for each direct
child, `descendants.append(child.id); descendants.extend(recursive call)`
with no visited set and no depth bound; each nested call consumes one unit
of fuel, so the worklist fails on exhausted fuel and `none` means the
recursion exceeds every finite depth. -/
def getDescAux (db : SubdeptDb) : Nat → List Nat → Option (List Nat)
  | 0, l =>
    match l with
    | [] => some []
    | _ :: _ => none
  | fuel + 1, l => descendList (fun c => getDescAux db fuel (childIds db c)) l

/-- `get_all_descendant_ids(db, subdept_id)` (subdepartments.py:276-287) at a
given recursion-depth budget. -/
def get_all_descendant_ids (db : SubdeptDb) (fuel : Nat) (subdeptId : Nat) :
    Option (List Nat) :=
  getDescAux db fuel (childIds db subdeptId)

/-- `is_descendant(db, parent_id, child_id)` (subdepartments.py:289-292):
membership of `child_id` in the descendant list of `parent_id`. -/
def is_descendant (db : SubdeptDb) (fuel : Nat) (parentId childId : Nat) :
    Option Bool :=
  (get_all_descendant_ids db fuel parentId).map (fun l => decide (childId ∈ l))

/-- The Python call `get_all_descendant_ids(db, x)` returns: some finite
recursion depth suffices for the traversal to produce its list. -/
def descTerminates (db : SubdeptDb) (x : Nat) : Prop :=
  ∃ fuel r, get_all_descendant_ids db fuel x = some r

/-- The `setattr` loop of `update_subdepartment` specialised to a payload
`{parent_id: newParent}`: the found row's `parent_id` is set to the payload
value. -/
def applyParentUpdate (db : SubdeptDb) (userDept subdeptId newParent : Nat) :
    SubdeptDb :=
  db.map (fun s =>
    if s.id = subdeptId ∧ s.department_id = userDept then
      { s with parent_id := some newParent }
    else s)

/-- `update_subdepartment` (subdepartments.py:135-166) for a payload that
sets `parent_id := newParent`.  Control flow of the source: 404 when no row
matches `(id, department)`; the circular-reference checks run only when the
payload's `parent_id` is truthy (non-zero) and differs from the current
parent; `newParent == id` and `is_descendant(id, newParent)` each raise 400
before any write; otherwise the parent is written.  The outer `none` means
the `is_descendant` traversal never returns. -/
def update_subdepartment (db : SubdeptDb) (userDept fuel subdeptId newParent : Nat) :
    Option (ApiResult SubdeptDb) :=
  match db.find? (fun s => decide (s.id = subdeptId ∧ s.department_id = userDept)) with
  | none => some ⟨404, db⟩
  | some s =>
    if newParent ≠ 0 ∧ some newParent ≠ s.parent_id then
      if newParent = subdeptId then some ⟨400, db⟩
      else
        match is_descendant db fuel subdeptId newParent with
        | none => none
        | some true => some ⟨400, db⟩
        | some false => some ⟨200, applyParentUpdate db userDept subdeptId newParent⟩
    else some ⟨200, applyParentUpdate db userDept subdeptId newParent⟩

/-- A row of the `users` table, restricted to the fields
`delete_subdepartment` touches. -/
structure DUser where
  id : Nat
  subdepartment_id : Option Nat
deriving DecidableEq, Repr

/-- A row of the `tasks` table, restricted to the fields
`delete_subdepartment` touches. -/
structure DTask where
  id : Nat
  subdepartment_id : Option Nat
deriving DecidableEq, Repr

/-- The tables `delete_subdepartment` reads and writes. -/
structure OrgState where
  subdepts : List Subdept
  users : List DUser
  tasks : List DTask
deriving DecidableEq, Repr

/-- Python truthiness of the optional integer query parameter
`reassign_to` (absent or `0` are falsy). -/
def optTruthy : Option Nat → Bool
  | none => false
  | some n => decide (n ≠ 0)

/-- `delete_subdepartment` (subdepartments.py:168-217).  404 when `(id,
department)` has no row; 400 when the node has a direct member or direct
task and `reassign_to` is falsy; with a truthy `reassign_to` the target must
resolve in the same department (404 otherwise) and every user/task row
referencing the node is rewritten to the target; finally the row itself is
deleted (primary-key delete). -/
def delete_subdepartment (st : OrgState) (userDept subdeptId : Nat)
    (reassign_to : Option Nat) : ApiResult OrgState :=
  match st.subdepts.find? (fun s => decide (s.id = subdeptId ∧ s.department_id = userDept)) with
  | none => ⟨404, st⟩
  | some _ =>
    let has_dependencies :=
      st.users.any (fun u => decide (u.subdepartment_id = some subdeptId)) ||
      st.tasks.any (fun t => decide (t.subdepartment_id = some subdeptId))
    if has_dependencies && !optTruthy reassign_to then ⟨400, st⟩
    else
      match reassign_to with
      | some t =>
        if t ≠ 0 then
          match st.subdepts.find? (fun s => decide (s.id = t ∧ s.department_id = userDept)) with
          | none => ⟨404, st⟩
          | some _ =>
            ⟨200,
              { subdepts := st.subdepts.filter (fun s => decide (s.id ≠ subdeptId)),
                users := st.users.map (fun u =>
                  if u.subdepartment_id = some subdeptId then
                    { u with subdepartment_id := some t }
                  else u),
                tasks := st.tasks.map (fun tk =>
                  if tk.subdepartment_id = some subdeptId then
                    { tk with subdepartment_id := some t }
                  else tk) }⟩
        else ⟨200, { st with subdepts := st.subdepts.filter (fun s => decide (s.id ≠ subdeptId)) }⟩
      | none => ⟨200, { st with subdepts := st.subdepts.filter (fun s => decide (s.id ≠ subdeptId)) }⟩

/-- A row of the `task_assignments` table. -/
structure Assignment where
  id : Nat
  task_id : Nat
  assigned_to : Nat
  status : AStatus
  progress : Int
  comments : Option String
  started_at : Option Nat
  completed_at : Option Nat
  version : Nat
  updated_at : Nat
deriving DecidableEq, Repr

/-- The request body `TaskAssignmentBase` of `PUT /task-assignments/{id}`
(task_assignments.py:9-17); it carries a `version` field. -/
structure AssignmentPayload where
  task_id : Nat
  assigned_to : Nat
  status : AStatus
  progress : Int
  comments : Option String
  started_at : Option Nat
  completed_at : Option Nat
  version : Nat
deriving DecidableEq, Repr

/-- `update_task_assignment` (task_assignments.py:101-124): reads the stored
row, then writes every payload field with `version` overwritten to stored
version + 1 — the payload's own `version` is never compared or used. -/
def update_task_assignment (db : List Assignment) (aid : Nat)
    (p : AssignmentPayload) (now : Nat) : ApiResult (List Assignment) :=
  match db.find? (fun a => decide (a.id = aid)) with
  | none => ⟨404, db⟩
  | some cur =>
    ⟨200, db.map (fun a =>
      if a.id = aid then
        { a with
          task_id := p.task_id, assigned_to := p.assigned_to,
          status := p.status, progress := p.progress, comments := p.comments,
          started_at := p.started_at, completed_at := p.completed_at,
          version := cur.version + 1, updated_at := now }
      else a)⟩

/-- `update_assignment_status` (task_assignments.py:175-214).  The enum
validation (400 on an unknown string) is unrepresentable here because the
status argument is already the enum.  The handler writes `status`,
`version := stored + 1`, `updated_at`; `started_at` is set only when the new
status is In Progress and the stored `started_at` is unset, `elif` the new
status is Completed and the stored `completed_at` is unset, `completed_at`
is set.  No caller version is accepted or compared. -/
def update_assignment_status (db : List Assignment) (aid : Nat)
    (status : AStatus) (now : Nat) : ApiResult (List Assignment) :=
  match db.find? (fun a => decide (a.id = aid)) with
  | none => ⟨404, db⟩
  | some cur =>
    ⟨200, db.map (fun a =>
      if a.id = aid then
        { a with
          status := status, version := cur.version + 1, updated_at := now,
          started_at :=
            if status = AStatus.inProgress ∧ cur.started_at = none then some now
            else a.started_at,
          completed_at :=
            if ¬(status = AStatus.inProgress ∧ cur.started_at = none) ∧
                status = AStatus.completed ∧ cur.completed_at = none then some now
            else a.completed_at }
      else a)⟩

/-- `update_assignment_progress` (task_assignments.py:216-244): 400 when the
progress is outside `[0, 100]`; otherwise writes `progress`,
`version := stored + 1`, `updated_at`.  No caller version is accepted. -/
def update_assignment_progress (db : List Assignment) (aid : Nat)
    (progress : Int) (now : Nat) : ApiResult (List Assignment) :=
  if ¬(0 ≤ progress ∧ progress ≤ 100) then ⟨400, db⟩
  else
    match db.find? (fun a => decide (a.id = aid)) with
    | none => ⟨404, db⟩
    | some cur =>
      ⟨200, db.map (fun a =>
        if a.id = aid then
          { a with progress := progress, version := cur.version + 1, updated_at := now }
        else a)⟩

/-- A row of the `tasks` table, restricted to what `update_task_status`
touches. -/
structure Task where
  id : Nat
  priority : Priority
  version : Nat
  updated_at : Nat
deriving DecidableEq, Repr

/-- The progress dict of `update_task_status` (tasks.py:62-67):
`{'To Do': 0, 'In Progress': 25, 'Under Review': 75, 'Completed': 100}`. -/
def statusProgress : AStatus → Int
  | AStatus.toDo => 0
  | AStatus.inProgress => 25
  | AStatus.underReview => 75
  | AStatus.completed => 100

/-- `update_task_status` (tasks.py:49-98): for every assignment of the task,
writes the status, the derived progress and `updated_at`; `started_at` is
set only when the status is In Progress and the assignment's `started_at`
is unset, `elif` the status is Completed, `completed_at` is set — with no
unset guard.  The task's `version` is incremented only when the status is
Completed; assignment versions are never touched.  Notification rows are an
external side effect and are not modelled. -/
def update_task_status (tasks : List Task) (asgs : List Assignment)
    (taskId : Nat) (status : AStatus) (now : Nat) :
    ApiResult (List Task × List Assignment) :=
  match tasks.find? (fun t => decide (t.id = taskId)) with
  | none => ⟨404, (tasks, asgs)⟩
  | some _ =>
    let progress := statusProgress status
    let asgs2 := asgs.map (fun a =>
      if a.task_id = taskId then
        { a with
          status := status, progress := progress, updated_at := now,
          started_at :=
            if status = AStatus.inProgress ∧ a.started_at = none then some now
            else a.started_at,
          completed_at :=
            if ¬(status = AStatus.inProgress ∧ a.started_at = none) ∧
                status = AStatus.completed then some now
            else a.completed_at }
      else a)
    let tasks2 :=
      if status = AStatus.completed then
        tasks.map (fun t =>
          if t.id = taskId then { t with version := t.version + 1, updated_at := now }
          else t)
      else tasks
    ⟨200, (tasks2, asgs2)⟩

/-- What `calculate_efficiency_score` reads from one assignment: the two
timestamps (epoch seconds, real arithmetic modelled over `ℚ`) and the joined
task's priority. -/
structure EffAssignment where
  started_at : Option ℚ
  completed_at : Option ℚ
  priority : Priority
deriving DecidableEq

/-- The `priority_weights` dict of `calculate_efficiency_score`
(analytics.py:248): `{'Critical': 4, 'High': 3, 'Medium': 2, 'Low': 1}`. -/
def priorityWeight : Priority → ℚ
  | Priority.critical => 4
  | Priority.high => 3
  | Priority.medium => 2
  | Priority.low => 1

/-- The loop body of `calculate_efficiency_score` (analytics.py:251-259):
an assignment contributes a weighted score only when both timestamps are
set; `efficiency = min(estimated / actual if actual > 0 else 1, 2)` with
`estimated = 432000`. -/
def effScoreOf (a : EffAssignment) : Option ℚ :=
  match a.completed_at, a.started_at with
  | some c, some s =>
    let actual := c - s
    let estimated : ℚ := 432000
    let w := priorityWeight a.priority
    let eff := min (if 0 < actual then estimated / actual else 1) 2
    some (eff * w)
  | _, _ => none

/-- `calculate_efficiency_score` (analytics.py:243-261): `0` on an empty
assignment list, else the mean of the weighted scores times 25, or `0` when
no assignment qualifies. -/
def calculate_efficiency_score (assignments : List EffAssignment) : ℚ :=
  if assignments.isEmpty then 0
  else
    let scores := assignments.filterMap effScoreOf
    if scores.isEmpty then 0 else scores.sum / scores.length * 25

/-- The efficiency formula exactly as the claim states it: over qualifying
assignments, `efficiency = min(432000 / actual, 2)`, weighted by
`{Critical: 4, High: 3, Medium: 2, Low: 1}`, final score
`mean(weighted) * 25`, `0` when no assignment qualifies. -/
def specEffWeighted (a : EffAssignment) : Option ℚ :=
  match a.completed_at, a.started_at with
  | some c, some s => some (min (432000 / (c - s)) 2 * priorityWeight a.priority)
  | _, _ => none

/-- Claim-side efficiency score (see `specEffWeighted`). -/
def specEfficiencyScore (assignments : List EffAssignment) : ℚ :=
  let w := assignments.filterMap specEffWeighted
  if w.isEmpty then 0 else w.sum / w.length * 25

/-- Decidable side condition: every qualifying assignment has a strictly
positive actual duration (started strictly before completed), so the
claim's `estimated / actual` quotient is well defined. -/
def effPositive (a : EffAssignment) : Bool :=
  match a.completed_at, a.started_at with
  | some c, some s => decide (s < c)
  | _, _ => true

/-- `calculate_workload_score` (analytics.py:263-267):
`base = min(active * 10, 100)`,
`weight_factor = min(load / active if active > 0 else 0, 2)`,
score `= base * weight_factor`. -/
def calculate_workload_score (active_tasks weighted_load : Nat) : ℚ :=
  let base_score : ℚ := min ((active_tasks : ℚ) * 10) 100
  let weight_factor : ℚ :=
    min (if 0 < active_tasks then (weighted_load : ℚ) / active_tasks else 0) 2
  base_score * weight_factor

/-- The workload `case` weights of `get_workload_distribution`
(analytics.py:222-224): `{Critical: 3, High: 2, Medium: 1, else: 0}`. -/
def workloadPriorityWeight : Priority → Nat
  | Priority.critical => 3
  | Priority.high => 2
  | Priority.medium => 1
  | Priority.low => 0

/-- One joined row of the `get_workload_distribution` query for a user:
the assignment's status and the joined task's priority. -/
structure WAssignment where
  status : AStatus
  priority : Priority
deriving DecidableEq, Repr

/-- The filter `TaskAssignment.status.in_(['To Do', 'In Progress'])` of
`get_workload_distribution` (analytics.py:227). -/
def activeAssignments (l : List WAssignment) : List WAssignment :=
  l.filter (fun a => decide (a.status = AStatus.toDo ∨ a.status = AStatus.inProgress))

/-- The `weighted_load` aggregate of `get_workload_distribution`: the sum of
the priority case-weights over the user's active assignments. -/
def weighted_load (l : List WAssignment) : Nat :=
  (activeAssignments l).foldl (fun acc a => acc + workloadPriorityWeight a.priority) 0

/-- The `workload_score` reported by `get_workload_distribution`
(analytics.py:237): `calculate_workload_score(active_tasks, weighted_load)`
with both aggregates computed from the user's joined rows. -/
def get_workload_distribution_score (l : List WAssignment) : ℚ :=
  calculate_workload_score (activeAssignments l).length (weighted_load l)

/-- The workload formula exactly as the claim states it, with the explicit
`active_task_count == 0 → 0` clause. -/
def specWorkloadScore (active_tasks weighted_load : Nat) : ℚ :=
  if active_tasks = 0 then 0
  else min ((active_tasks : ℚ) * 10) 100 * min ((weighted_load : ℚ) / active_tasks) 2

/-- Truncation toward zero, the semantics of Python's `int()` conversion on
a real number. -/
def ratTrunc (q : ℚ) : ℤ :=
  if 0 ≤ q then ⌊q⌋ else ⌈q⌉

/-- `calc_change` (department_stats.py:79-82): `100` when `previous == 0`
and `current > 0`, else `0` when `previous == 0`, else
`int(((current - previous) / previous) * 100)` — Python's `int()` truncates
toward zero.  The float arithmetic is modelled exactly over `ℚ`. -/
def calc_change (current previous : ℤ) : ℤ :=
  if previous = 0 then (if 0 < current then 100 else 0)
  else ratTrunc (((current : ℚ) - (previous : ℚ)) / (previous : ℚ) * 100)

/-- The change-over-period helper exactly as the claim states it:
`round((current - previous) / previous * 100)`, rounding to the nearest
integer. -/
def specChangeRound (current previous : ℤ) : ℤ :=
  if previous = 0 then (if 0 < current then 100 else 0)
  else round (((current : ℚ) - (previous : ℚ)) / (previous : ℤ) * 100)

/-- The amended change-over-period contract: identical to the claim except
that the quotient is truncated toward zero (integer t-division) instead of
rounded to the nearest integer. -/
def specChangeTrunc (current previous : ℤ) : ℤ :=
  if previous = 0 then (if 0 < current then 100 else 0)
  else Int.tdiv ((current - previous) * 100) previous

/-- Reachability through the child relation of the subdepartment table:
`Descend db x y` holds when `y` is reachable from `x` by one or more
child steps (`y ∈ getDescendantIds(x)` in the spec's vocabulary). -/
inductive Descend (db : SubdeptDb) : Nat → Nat → Prop where
  | child : ∀ {x y : Nat}, y ∈ childIds db x → Descend db x y
  | tail : ∀ {x y z : Nat}, y ∈ childIds db x → Descend db y z → Descend db x z

/-- A ranking certificate of acyclicity for the parent relation: every row's
own rank is strictly below its parent's rank. -/
def rankOk (db : SubdeptDb) (rank : Nat → Nat) : Bool :=
  db.all (fun s =>
    match s.parent_id with
    | some p => decide (rank s.id < rank p)
    | none => true)

/-- The traversal of the empty worklist succeeds at every fuel. -/
theorem getDescAux_nil (db : SubdeptDb) (fuel : Nat) : getDescAux db fuel [] = some [] := by
  cases fuel <;> rfl

/-- With no fuel left, a nonempty worklist fails. -/
theorem getDescAux_zero_cons (db : SubdeptDb) (c : Nat) (cs : List Nat) :
    getDescAux db 0 (c :: cs) = none := rfl

/-- Unfolding of the traversal on a nonempty worklist with fuel left. -/
theorem getDescAux_succ_cons (db : SubdeptDb) (fuel c : Nat) (cs : List Nat) :
    getDescAux db (fuel + 1) (c :: cs) =
      match getDescAux db fuel (childIds db c), getDescAux db (fuel + 1) cs with
      | some ds, some rest => some (c :: (ds ++ rest))
      | _, _ => none := rfl

/-- Inversion: a successful step expands the head with one unit of fuel less
and the tail with the same fuel. -/
theorem getDescAux_succ_cons_some {db : SubdeptDb} {fuel c : Nat} {cs : List Nat}
    {r : List Nat} (h : getDescAux db (fuel + 1) (c :: cs) = some r) :
    ∃ ds rest, getDescAux db fuel (childIds db c) = some ds ∧
      getDescAux db (fuel + 1) cs = some rest ∧ r = c :: (ds ++ rest) := by
  rw [getDescAux_succ_cons] at h
  cases h1 : getDescAux db fuel (childIds db c) with
  | none => rw [h1] at h; exact absurd h (by simp)
  | some ds =>
    cases h2 : getDescAux db (fuel + 1) cs with
    | none => rw [h1, h2] at h; exact absurd h (by simp)
    | some rest =>
      rw [h1, h2] at h
      exact ⟨ds, rest, rfl, rfl, (Option.some.inj h).symm⟩

/-- A successful step for a given fuel and worklist also succeeds at the
same fuel on a worklist head and tail; the two pieces assemble the result. -/
theorem getDescAux_succ_cons_of_some {db : SubdeptDb} {fuel c : Nat} {cs ds rest : List Nat}
    (h1 : getDescAux db fuel (childIds db c) = some ds)
    (h2 : getDescAux db (fuel + 1) cs = some rest) :
    getDescAux db (fuel + 1) (c :: cs) = some (c :: (ds ++ rest)) := by
  rw [getDescAux_succ_cons, h1, h2]

/-- Every worklist element is emitted by a successful traversal. -/
theorem getDescAux_subset (db : SubdeptDb) (F : Nat) :
    ∀ l r, getDescAux db F l = some r → ∀ c ∈ l, c ∈ r := by
  cases F with
  | zero =>
    intro l r h c hc
    cases l with
    | nil => simp at hc
    | cons a as => exact absurd h (by rw [getDescAux_zero_cons]; simp)
  | succ f =>
    intro l
    induction l with
    | nil => intro r _ c hc; simp at hc
    | cons a as ih =>
      intro r h c hc
      obtain ⟨ds, rest, h1, h2, hr⟩ := getDescAux_succ_cons_some h
      subst hr
      rcases List.mem_cons.mp hc with hca | hcas
      · exact hca ▸ List.mem_cons_self a _
      · exact List.mem_cons_of_mem _ (List.mem_append_right _ (ih rest h2 c hcas))

/-- Every node emitted by a successful traversal was itself fully expanded
with strictly smaller fuel, and its expansion is contained in the result. -/
theorem getDescAux_expand (db : SubdeptDb) (F : Nat) :
    ∀ l r, getDescAux db F l = some r → ∀ y ∈ r,
      ∃ f, f < F ∧ ∃ ry, getDescAux db f (childIds db y) = some ry ∧
        ∀ a ∈ ry, a ∈ r := by
  induction F with
  | zero =>
    intro l r h y hy
    cases l with
    | nil =>
      rw [getDescAux_nil] at h
      rw [← Option.some.inj h] at hy
      simp at hy
    | cons a as => exact absurd h (by rw [getDescAux_zero_cons]; simp)
  | succ f ihF =>
    intro l
    induction l with
    | nil =>
      intro r h y hy
      rw [getDescAux_nil] at h
      rw [← Option.some.inj h] at hy
      simp at hy
    | cons a as ihl =>
      intro r h y hy
      obtain ⟨ds, rest, h1, h2, hr⟩ := getDescAux_succ_cons_some h
      subst hr
      rcases List.mem_cons.mp hy with hya | hy'
      · subst hya
        exact ⟨f, Nat.lt_succ_self f, ds, h1,
          fun b hb => List.mem_cons_of_mem _ (List.mem_append_left _ hb)⟩
      · rcases List.mem_append.mp hy' with hds | hrest
        · obtain ⟨f', hf', ry, hry, hsub⟩ := ihF (childIds db a) ds h1 y hds
          exact ⟨f', Nat.lt_trans hf' (Nat.lt_succ_self f), ry, hry,
            fun b hb => List.mem_cons_of_mem _ (List.mem_append_left _ (hsub b hb))⟩
        · obtain ⟨f', hf', ry, hry, hsub⟩ := ihl rest h2 y hrest
          exact ⟨f', hf', ry, hry,
            fun b hb => List.mem_cons_of_mem _ (List.mem_append_right _ (hsub b hb))⟩

/-- The emitted set is closed under one child step. -/
theorem getDescAux_closed_step {db : SubdeptDb} {F : Nat} {l r : List Nat}
    (h : getDescAux db F l = some r) {d e : Nat} (hd : d ∈ r)
    (he : e ∈ childIds db d) : e ∈ r := by
  obtain ⟨f, _, ry, hry, hsub⟩ := getDescAux_expand db F l r h d hd
  exact hsub e (getDescAux_subset db f _ ry hry e he)

/-- The emitted set is closed under reachability through the child
relation. -/
theorem getDescAux_closed {db : SubdeptDb} {F : Nat} {l r : List Nat}
    (h : getDescAux db F l = some r) {d y : Nat} (hd : d ∈ r)
    (hdy : Descend db d y) : y ∈ r := by
  induction hdy with
  | child hm => exact getDescAux_closed_step h hd hm
  | tail hm _ ih => exact ih (getDescAux_closed_step h hd hm)

/-- Soundness: every emitted node is a worklist element or reachable from
one. -/
theorem getDescAux_sound (db : SubdeptDb) (F : Nat) :
    ∀ l r, getDescAux db F l = some r → ∀ y ∈ r,
      ∃ c ∈ l, c = y ∨ Descend db c y := by
  induction F with
  | zero =>
    intro l r h y hy
    cases l with
    | nil =>
      rw [getDescAux_nil] at h
      rw [← Option.some.inj h] at hy
      simp at hy
    | cons a as => exact absurd h (by rw [getDescAux_zero_cons]; simp)
  | succ f ihF =>
    intro l
    induction l with
    | nil =>
      intro r h y hy
      rw [getDescAux_nil] at h
      rw [← Option.some.inj h] at hy
      simp at hy
    | cons a as ihl =>
      intro r h y hy
      obtain ⟨ds, rest, h1, h2, hr⟩ := getDescAux_succ_cons_some h
      subst hr
      rcases List.mem_cons.mp hy with hya | hy'
      · exact ⟨a, List.mem_cons_self a _, Or.inl hya.symm⟩
      · rcases List.mem_append.mp hy' with hds | hrest
        · obtain ⟨c, hc, hcase⟩ := ihF (childIds db a) ds h1 y hds
          refine ⟨a, List.mem_cons_self a _, Or.inr ?_⟩
          rcases hcase with rfl | hd
          · exact Descend.child hc
          · exact Descend.tail hc hd
        · obtain ⟨c, hc, hcase⟩ := ihl rest h2 y hrest
          exact ⟨c, List.mem_cons_of_mem _ hc, hcase⟩

/-- Completeness: everything reachable from a worklist element is
emitted. -/
theorem getDescAux_complete {db : SubdeptDb} {F : Nat} {l r : List Nat}
    (h : getDescAux db F l = some r) {c y : Nat} (hc : c ∈ l)
    (hd : Descend db c y) : y ∈ r :=
  getDescAux_closed h (getDescAux_subset db F l r h c hc) hd

/-- A node lying on a cycle of the child relation can never be fully
expanded: the traversal of its children fails at every fuel (the Python
recursion never returns). -/
theorem getDescAux_cycle_none (db : SubdeptDb) {x : Nat} (hcyc : Descend db x x) :
    ∀ F, getDescAux db F (childIds db x) = none := by
  intro F
  induction F using Nat.strong_induction_on with
  | _ F ih =>
    by_contra hne
    obtain ⟨r, hr⟩ := Option.ne_none_iff_exists'.mp hne
    have hx : x ∈ r := by
      cases hcyc with
      | child hm => exact getDescAux_subset db F _ r hr x hm
      | tail hm hd => exact getDescAux_complete hr hm hd
    obtain ⟨f, hf, ry, hry, _⟩ := getDescAux_expand db F _ r hr x hx
    rw [ih f hf] at hry
    exact Option.noConfusion hry

/-- Transitivity of reachability. -/
theorem descend_trans (db : SubdeptDb) {x y z : Nat} (h1 : Descend db x y)
    (h2 : Descend db y z) : Descend db x z := by
  induction h1 with
  | child hm => exact Descend.tail hm h2
  | tail hm _ ih => exact Descend.tail hm (ih h2)

/-- Inversion on the last step of a reachability chain: the target has a
parent which is the source or reachable from it. -/
theorem descend_last (db : SubdeptDb) {a y : Nat} (h : Descend db a y) :
    ∃ p, y ∈ childIds db p ∧ (p = a ∨ Descend db a p) := by
  induction h with
  | child hm => exact ⟨_, hm, Or.inl rfl⟩
  | tail hm _ ih =>
    obtain ⟨p, hp, hcase⟩ := ih
    rcases hcase with rfl | hdp
    · exact ⟨p, hp, Or.inr (Descend.child hm)⟩
    · exact ⟨p, hp, Or.inr (Descend.tail hm hdp)⟩

/-- Membership in a child list, unfolded to the underlying rows. -/
theorem mem_childIds_iff (db : SubdeptDb) (x y : Nat) :
    y ∈ childIds db x ↔ ∃ s, (s ∈ db ∧ s.parent_id = some x) ∧ s.id = y := by
  simp [childIds, List.mem_filter, List.mem_map]

/-- With unique row ids, every node has at most one parent. -/
theorem childIds_functional (db : SubdeptDb)
    (hid : (db.map (fun s => s.id)).Nodup) {x x' y : Nat}
    (h1 : y ∈ childIds db x) (h2 : y ∈ childIds db x') : x = x' := by
  rw [mem_childIds_iff] at h1 h2
  obtain ⟨s, ⟨hs, hp⟩, hy⟩ := h1
  obtain ⟨s', ⟨hs', hp'⟩, hy'⟩ := h2
  have hss : s = s' := List.inj_on_of_nodup_map hid hs hs' (hy.trans hy'.symm)
  rw [hss, hp'] at hp
  exact (Option.some.inj hp).symm

/-- With unique row ids, two ancestors of a common node are comparable. -/
theorem descend_comparable (db : SubdeptDb)
    (hid : (db.map (fun s => s.id)).Nodup) {a y : Nat} (h1 : Descend db a y) :
    ∀ b, Descend db b y → a = b ∨ Descend db a b ∨ Descend db b a := by
  induction h1 with
  | @child x y hm =>
    intro b h2
    obtain ⟨p, hp, hcase⟩ := descend_last db h2
    have hpa : p = x := childIds_functional db hid hp hm
    subst hpa
    rcases hcase with h | h
    · exact Or.inl h
    · exact Or.inr (Or.inr h)
  | @tail x c z hm _ ih =>
    intro b h2
    rcases ih b h2 with rfl | hcb | hbc
    · exact Or.inr (Or.inl (Descend.child hm))
    · exact Or.inr (Or.inl (Descend.tail hm hcb))
    · obtain ⟨p, hp, hcase⟩ := descend_last db hbc
      have hpa : p = x := childIds_functional db hid hp hm
      subst hpa
      rcases hcase with h | h
      · exact Or.inl h
      · exact Or.inr (Or.inr h)

/-- With unique row ids, a sibling reaching another sibling yields a cycle
through the first sibling. -/
theorem sibling_cycle (db : SubdeptDb)
    (hid : (db.map (fun s => s.id)).Nodup) {x c c' : Nat}
    (h1 : c ∈ childIds db x) (h2 : c' ∈ childIds db x)
    (hd : Descend db c c') : Descend db c c := by
  obtain ⟨p, hp, hcase⟩ := descend_last db hd
  have hpx : p = x := childIds_functional db hid hp h2
  subst hpx
  rcases hcase with rfl | hcx
  · exact Descend.child h1
  · exact descend_trans db hcx (Descend.child h1)

/-- With unique row ids, each child list has no duplicates. -/
theorem childIds_nodup (db : SubdeptDb)
    (hid : (db.map (fun s => s.id)).Nodup) (x : Nat) :
    (childIds db x).Nodup := by
  have hsub : List.Sublist
      ((db.filter (fun s => decide (s.parent_id = some x))).map (fun s => s.id))
      (db.map (fun s => s.id)) :=
    List.Sublist.map _ (List.filter_sublist db)
  exact List.Nodup.sublist hsub hid

/-- With unique row ids, a successful traversal of a sibling worklist emits
each node at most once. -/
theorem getDescAux_nodup (db : SubdeptDb)
    (hid : (db.map (fun s => s.id)).Nodup) :
    ∀ F l x r, (∀ c ∈ l, c ∈ childIds db x) → l.Nodup →
      getDescAux db F l = some r → r.Nodup := by
  intro F
  induction F with
  | zero =>
    intro l x r _ _ h
    cases l with
    | nil =>
      rw [getDescAux_nil] at h
      rw [← Option.some.inj h]
      exact List.nodup_nil
    | cons a as => exact absurd h (by rw [getDescAux_zero_cons]; simp)
  | succ f ihF =>
    intro l
    induction l with
    | nil =>
      intro x r _ _ h
      rw [getDescAux_nil] at h
      rw [← Option.some.inj h]
      exact List.nodup_nil
    | cons c cs ihl =>
      intro x r hsub hnd h
      obtain ⟨ds, rest, h1, h2, hr⟩ := getDescAux_succ_cons_some h
      subst hr
      have hcx : c ∈ childIds db x := hsub c (List.mem_cons_self c cs)
      have hdsnd : ds.Nodup :=
        ihF (childIds db c) c ds (fun e he => he) (childIds_nodup db hid c) h1
      have hrestnd : rest.Nodup :=
        ihl x rest (fun e he => hsub e (List.mem_cons_of_mem _ he))
          (List.Nodup.of_cons hnd) h2
      have hds_desc : ∀ y ∈ ds, Descend db c y := by
        intro y hy
        obtain ⟨c', hc', hcase⟩ := getDescAux_sound db f _ ds h1 y hy
        rcases hcase with rfl | hd
        · exact Descend.child hc'
        · exact Descend.tail hc' hd
      have hcc_false : ¬ Descend db c c := by
        intro hcyc
        rw [getDescAux_cycle_none db hcyc f] at h1
        exact Option.noConfusion h1
      have hcs_noSelf : ∀ c' ∈ cs, ¬ Descend db c' c' := by
        intro c' hc' hcyc
        have hc'rest : c' ∈ rest := getDescAux_subset db (f + 1) cs rest h2 c' hc'
        obtain ⟨f', _, ry, hry, _⟩ := getDescAux_expand db (f + 1) cs rest h2 c' hc'rest
        rw [getDescAux_cycle_none db hcyc f'] at hry
        exact Option.noConfusion hry
      have hrest_desc : ∀ y ∈ rest, ∃ c' ∈ cs, c' = y ∨ Descend db c' y :=
        getDescAux_sound db (f + 1) cs rest h2
      have hcnotcs : c ∉ cs := (List.nodup_cons.mp hnd).1
      have hcross : ∀ y, Descend db c y → y ∈ rest → False := by
        intro y hcy hyrest
        obtain ⟨c', hc'cs, hcase⟩ := hrest_desc y hyrest
        have hc'x : c' ∈ childIds db x := hsub c' (List.mem_cons_of_mem _ hc'cs)
        rcases hcase with rfl | hc'y
        · exact hcc_false (sibling_cycle db hid hcx hc'x hcy)
        · rcases descend_comparable db hid hcy c' hc'y with rfl | hccp | hcpc
          · exact hcnotcs hc'cs
          · exact hcc_false (sibling_cycle db hid hcx hc'x hccp)
          · exact hcs_noSelf c' hc'cs (sibling_cycle db hid hc'x hcx hcpc)
      have hc_ds : c ∉ ds := fun hc => hcc_false (hds_desc c hc)
      have hc_rest : c ∉ rest := by
        intro hc
        obtain ⟨c', hc'cs, hcase⟩ := hrest_desc c hc
        rcases hcase with rfl | hc'c
        · exact hcnotcs hc'cs
        · exact hcs_noSelf c' hc'cs
            (sibling_cycle db hid (hsub c' (List.mem_cons_of_mem _ hc'cs)) hcx hc'c)
      refine List.nodup_cons.mpr ⟨?_, ?_⟩
      · intro hc
        rcases List.mem_append.mp hc with h' | h'
        · exact hc_ds h'
        · exact hc_rest h'
      · exact List.nodup_append.mpr
          ⟨hdsnd, hrestnd, fun y hy hyr => hcross y (hds_desc y hy) hyr⟩

/-- Unfolding of the ranking certificate. -/
theorem rankOk_spec {db : SubdeptDb} {rank : Nat → Nat}
    (h : rankOk db rank = true) :
    ∀ s ∈ db, ∀ p, s.parent_id = some p → rank s.id < rank p := by
  intro s hs p hp
  have hall := List.all_eq_true.mp h s hs
  rw [hp] at hall
  exact of_decide_eq_true hall

/-- Under a ranking certificate, the traversal succeeds as soon as the fuel
exceeds the rank of every worklist element. -/
theorem getDescAux_terminates (db : SubdeptDb) (rank : Nat → Nat)
    (hrank : rankOk db rank = true) :
    ∀ F l, (∀ c ∈ l, rank c < F) → ∃ r, getDescAux db F l = some r := by
  intro F
  induction F with
  | zero =>
    intro l hl
    cases l with
    | nil => exact ⟨[], getDescAux_nil db 0⟩
    | cons c cs => exact absurd (hl c (List.mem_cons_self c cs)) (Nat.not_lt_zero _)
  | succ f ih =>
    intro l
    induction l with
    | nil => intro _; exact ⟨[], getDescAux_nil db (f + 1)⟩
    | cons c cs ihl =>
      intro hl
      have h1 : ∀ c' ∈ childIds db c, rank c' < f := by
        intro c' hc'
        rw [mem_childIds_iff] at hc'
        obtain ⟨s, ⟨hs, hp⟩, hide⟩ := hc'
        have hlt : rank s.id < rank c := rankOk_spec hrank s hs c hp
        rw [hide] at hlt
        exact Nat.lt_of_lt_of_le hlt (Nat.lt_succ_iff.mp (hl c (List.mem_cons_self c cs)))
      obtain ⟨ds, hds⟩ := ih (childIds db c) h1
      obtain ⟨rest, hrest⟩ := ihl (fun e he => hl e (List.mem_cons_of_mem _ he))
      exact ⟨c :: (ds ++ rest), getDescAux_succ_cons_of_some hds hrest⟩

/-- Decoding a successful `find?` over a decidable predicate: the found
element belongs to the list and satisfies the predicate. -/
theorem find?_decode {α : Type} {p : α → Prop} [DecidablePred p] {l : List α} {a : α}
    (h : l.find? (fun x => decide (p x)) = some a) : a ∈ l ∧ p a := by
  refine ⟨List.mem_of_find?_eq_some h, ?_⟩
  have h1 := List.find?_some h
  exact of_decide_eq_true h1

/-- A row whose parent is `p` contributes its id to `childIds db p`. -/
theorem row_mem_childIds {db : SubdeptDb} {s : Subdept} {p : Nat}
    (hs : s ∈ db) (hp : s.parent_id = some p) : s.id ∈ childIds db p := by
  rw [mem_childIds_iff]
  exact ⟨s, ⟨hs, hp⟩, rfl⟩

/-- Every id emitted by the descendant traversal is the id of some row. -/
theorem desc_mem_row (db : SubdeptDb) {fuel x y : Nat} {l : List Nat}
    (hdesc : get_all_descendant_ids db fuel x = some l) (hy : y ∈ l) :
    ∃ srow ∈ db, srow.id = y := by
  obtain ⟨c, hc, hcase⟩ := getDescAux_sound db fuel _ l hdesc y hy
  rcases hcase with rfl | hd
  · rw [mem_childIds_iff] at hc
    obtain ⟨srow, ⟨hs, _⟩, hid⟩ := hc
    exact ⟨srow, hs, hid⟩
  · obtain ⟨p, hp, _⟩ := descend_last db hd
    rw [mem_childIds_iff] at hp
    obtain ⟨srow, ⟨hs, _⟩, hid⟩ := hp
    exact ⟨srow, hs, hid⟩

/-- Every id emitted by the descendant traversal is reachable from the
root. -/
theorem desc_mem_descend (db : SubdeptDb) {fuel x y : Nat} {l : List Nat}
    (hdesc : get_all_descendant_ids db fuel x = some l) (hy : y ∈ l) :
    Descend db x y := by
  obtain ⟨c, hc, hcase⟩ := getDescAux_sound db fuel _ l hdesc y hy
  rcases hcase with rfl | hd
  · exact Descend.child hc
  · exact Descend.tail hc hd

/-- Floor of an integer quotient over `ℚ`, positive divisor. -/
theorem floor_intCast_div_of_pos (a b : ℤ) (hb : 0 < b) :
    ⌊(a : ℚ) / (b : ℚ)⌋ = a / b := by
  have hb' : ((b.toNat : ℕ) : ℤ) = b := Int.toNat_of_nonneg hb.le
  have hcast : ((b.toNat : ℕ) : ℚ) = (b : ℚ) := by exact_mod_cast hb'
  rw [← hcast, Rat.floor_intCast_div_natCast, hb']

/-- Truncation toward zero of an integer quotient over `ℚ` is integer
t-division, positive divisor. -/
theorem ratTrunc_intCast_div_of_pos (a b : ℤ) (hb : 0 < b) :
    ratTrunc ((a : ℚ) / (b : ℚ)) = a.tdiv b := by
  rcases le_or_lt 0 a with ha | ha
  · have hq : (0 : ℚ) ≤ (a : ℚ) / (b : ℚ) := by
      apply div_nonneg
      · exact_mod_cast ha
      · exact_mod_cast hb.le
    rw [ratTrunc, if_pos hq, floor_intCast_div_of_pos a b hb, Int.tdiv_eq_ediv ha hb.le]
  · have hq : (a : ℚ) / (b : ℚ) < 0 := by
      apply div_neg_of_neg_of_pos
      · exact_mod_cast ha
      · exact_mod_cast hb
    rw [ratTrunc, if_neg (not_le.mpr hq)]
    have hneg : -((a : ℚ) / (b : ℚ)) = ((-a : ℤ) : ℚ) / (b : ℚ) := by
      push_cast
      ring
    have hceil : (⌈(a : ℚ) / (b : ℚ)⌉ : ℤ) = -⌊-((a : ℚ) / (b : ℚ))⌋ := by
      conv_lhs => rw [← neg_neg ((a : ℚ) / (b : ℚ))]
      rw [Int.ceil_neg]
    rw [hceil, hneg, floor_intCast_div_of_pos (-a) b hb]
    rw [← Int.tdiv_eq_ediv (by omega : (0 : ℤ) ≤ -a) hb.le, Int.neg_tdiv, neg_neg]

/-- Truncation toward zero of an integer quotient over `ℚ` is integer
t-division. -/
theorem ratTrunc_intCast_div (a b : ℤ) (hb : b ≠ 0) :
    ratTrunc ((a : ℚ) / (b : ℚ)) = a.tdiv b := by
  rcases lt_or_gt_of_ne hb with hneg | hpos
  · have h : (a : ℚ) / (b : ℚ) = ((-a : ℤ) : ℚ) / ((-b : ℤ) : ℚ) := by
      push_cast
      exact (neg_div_neg_eq _ _).symm
    rw [h, ratTrunc_intCast_div_of_pos (-a) (-b) (by omega), Int.neg_tdiv_neg]
  · exact ratTrunc_intCast_div_of_pos a b hpos

/-- C1.  For every subdepartment tree and every subdepartment id, updating
the subdepartment's parent to `new_parent` fails with Conflict (400)
whenever `new_parent` is the id itself or any member of
`getDescendantIds(id)` (here: the list the traversal returns), and the
tree is unchanged after the failed call. -/
theorem C1_move_cycle_conflict (db : SubdeptDb)
    (userDept fuel subdeptId newParent : Nat) (s : Subdept) (l : List Nat)
    (hposAll : ∀ srow ∈ db, 0 < srow.id)
    (hfind : db.find? (fun s => decide (s.id = subdeptId ∧ s.department_id = userDept)) = some s)
    (hdesc : get_all_descendant_ids db fuel subdeptId = some l)
    (hmem : newParent = subdeptId ∨ newParent ∈ l) :
    update_subdepartment db userDept fuel subdeptId newParent = some ⟨400, db⟩ := by
  have hdec0 := find?_decode hfind
  have hsmem : s ∈ db := hdec0.1
  have hsid : s.id = subdeptId := hdec0.2.1
  have hNP0 : newParent ≠ 0 := by
    rcases hmem with heq2 | hl
    · have hpos := hposAll s hsmem
      omega
    · obtain ⟨srow, hsrow, hid⟩ := desc_mem_row db hdesc hl
      have hpos := hposAll srow hsrow
      omega
  have hPNe : some newParent ≠ s.parent_id := by
    intro heq
    have hchild : subdeptId ∈ childIds db newParent := by
      have h' := row_mem_childIds hsmem heq.symm
      rwa [hsid] at h'
    have hdesc' : getDescAux db fuel (childIds db subdeptId) = some l := hdesc
    rcases hmem with heq2 | hl
    · have hcyc : Descend db subdeptId subdeptId := Descend.child (heq2 ▸ hchild)
      rw [getDescAux_cycle_none db hcyc fuel] at hdesc'
      exact Option.noConfusion hdesc'
    · have h1 : Descend db subdeptId newParent := desc_mem_descend db hdesc hl
      have h2 : Descend db newParent subdeptId := Descend.child hchild
      have hcyc : Descend db subdeptId subdeptId := descend_trans db h1 h2
      rw [getDescAux_cycle_none db hcyc fuel] at hdesc'
      exact Option.noConfusion hdesc'
  simp only [update_subdepartment, hfind]
  rw [if_pos ⟨hNP0, hPNe⟩]
  by_cases hps : newParent = subdeptId
  · rw [if_pos hps]
  · rw [if_neg hps]
    have hmem' : newParent ∈ l := hmem.resolve_left hps
    have hdec : is_descendant db fuel subdeptId newParent = some true := by
      unfold is_descendant
      rw [hdesc]
      simp [hmem']
    rw [hdec]

/-- Witness for C1: a two-node chain 1 ← 2; reparenting 1 under its child 2
is rejected with 400 and leaves the table unchanged. -/
theorem C1_move_cycle_conflict_witness :
    update_subdepartment [⟨1, 10, none⟩, ⟨2, 10, some 1⟩] 10 2 1 2 =
      some ⟨400, [⟨1, 10, none⟩, ⟨2, 10, some 1⟩]⟩ :=
  C1_move_cycle_conflict [⟨1, 10, none⟩, ⟨2, 10, some 1⟩] 10 2 1 2
    ⟨1, 10, none⟩ [2] (by decide) (by decide) (by decide) (by decide)

/-- C6 counterexample.  The claim asserts that `getDescendantIds`
terminates even in the presence of latent cycles in the parent relation and
never re-visits an emitted node.  On the two-node cycle 1 ⇄ 2 the traversal
returns at no recursion depth whatsoever: the code has no visited set, so
the Python call recurses forever. -/
theorem C6_descendants_counterexample :
    ¬ descTerminates [⟨1, 10, some 2⟩, ⟨2, 10, some 1⟩] 1 := by
  have hc1 : childIds [⟨1, 10, some 2⟩, ⟨2, 10, some 1⟩] 1 = [2] := by decide
  have hc2 : childIds [⟨1, 10, some 2⟩, ⟨2, 10, some 1⟩] 2 = [1] := by decide
  have key : ∀ fuel : Nat,
      getDescAux [⟨1, 10, some 2⟩, ⟨2, 10, some 1⟩] fuel [1] = none ∧
      getDescAux [⟨1, 10, some 2⟩, ⟨2, 10, some 1⟩] fuel [2] = none := by
    intro fuel
    induction fuel with
    | zero => exact ⟨rfl, rfl⟩
    | succ f ih =>
      constructor
      · rw [getDescAux_succ_cons, hc1, ih.2]
      · rw [getDescAux_succ_cons, hc2, ih.1]
  rintro ⟨fuel, r, hr⟩
  have hnone : get_all_descendant_ids [⟨1, 10, some 2⟩, ⟨2, 10, some 1⟩] fuel 1 = none := by
    show getDescAux [⟨1, 10, some 2⟩, ⟨2, 10, some 1⟩] fuel
      (childIds [⟨1, 10, some 2⟩, ⟨2, 10, some 1⟩] 1) = none
    rw [hc1]
    exact (key fuel).2
  rw [hnone] at hr
  exact Option.noConfusion hr

/-- C6 as amended.  On an acyclic forest — unique row ids and a rank
function decreasing from child to parent — the traversal terminates (fuel
`rank id` suffices), and its output contains exactly the nodes reachable
from `id` through the child relation, each emitted exactly once.  (The
original claim's tolerance of latent cycles is refuted by
the counterexample: with a cycle the traversal never returns.) -/
theorem C6_descendants_amended (db : SubdeptDb) (rank : Nat → Nat) (x : Nat)
    (hid : (db.map (fun s => s.id)).Nodup) (hrank : rankOk db rank = true) :
    ∃ r, get_all_descendant_ids db (rank x) x = some r ∧
      (∀ y, y ∈ r ↔ Descend db x y) ∧ r.Nodup := by
  have hchil : ∀ c ∈ childIds db x, rank c < rank x := by
    intro c hc
    rw [mem_childIds_iff] at hc
    obtain ⟨srow, ⟨hs, hp⟩, hids⟩ := hc
    have := rankOk_spec hrank srow hs x hp
    rwa [hids] at this
  obtain ⟨r, hr⟩ := getDescAux_terminates db rank hrank (rank x) (childIds db x) hchil
  refine ⟨r, hr, ?_, getDescAux_nodup db hid (rank x) (childIds db x) x r
    (fun c hc => hc) (childIds_nodup db hid x) hr⟩
  intro y
  constructor
  · intro hy
    exact desc_mem_descend db hr hy
  · intro hd
    cases hd with
    | child hm => exact getDescAux_subset db (rank x) _ r hr y hm
    | tail hm hrest => exact getDescAux_complete hr hm hrest

/-- Witness for the amended C6: a three-node chain 1 ← 2 ← 3 with an
explicit rank certificate. -/
theorem C6_descendants_amended_witness :
    ∃ r, get_all_descendant_ids [⟨2, 10, some 1⟩, ⟨3, 10, some 2⟩] 2 1 = some r ∧
      (∀ y, y ∈ r ↔ Descend [⟨2, 10, some 1⟩, ⟨3, 10, some 2⟩] 1 y) ∧ r.Nodup :=
  C6_descendants_amended [⟨2, 10, some 1⟩, ⟨3, 10, some 2⟩]
    (fun n => if n = 1 then 2 else if n = 2 then 1 else 0) 1 (by decide) (by decide)

/-- C4.  Deleting subdepartment `id` with a reassignment target `T` (a
different subdepartment of the same department) succeeds; afterwards no
user or task row references `id`, every row that referenced `id` now
references `T` and every other row is untouched; the remaining
subdepartment rows are exactly the original rows other than `id`, kept
verbatim — in particular orphaned children keep their own `parent_id`. -/
theorem C4_delete_reassign (st : OrgState) (userDept subdeptId T : Nat)
    (s tgt : Subdept)
    (hfind : st.subdepts.find? (fun s => decide (s.id = subdeptId ∧ s.department_id = userDept)) = some s)
    (hTfind : st.subdepts.find? (fun s => decide (s.id = T ∧ s.department_id = userDept)) = some tgt)
    (hT0 : 0 < T) (hTne : T ≠ subdeptId) :
    ∃ st2, delete_subdepartment st userDept subdeptId (some T) = ⟨200, st2⟩ ∧
      (∀ u ∈ st2.users, u.subdepartment_id ≠ some subdeptId) ∧
      (∀ tk ∈ st2.tasks, tk.subdepartment_id ≠ some subdeptId) ∧
      List.Forall₂ (fun old new : DUser =>
        (old.subdepartment_id = some subdeptId ∧ new = { old with subdepartment_id := some T }) ∨
        (old.subdepartment_id ≠ some subdeptId ∧ new = old)) st.users st2.users ∧
      List.Forall₂ (fun old new : DTask =>
        (old.subdepartment_id = some subdeptId ∧ new = { old with subdepartment_id := some T }) ∨
        (old.subdepartment_id ≠ some subdeptId ∧ new = old)) st.tasks st2.tasks ∧
      (∀ sd ∈ st.subdepts, sd.id ≠ subdeptId → sd ∈ st2.subdepts) ∧
      (∀ sd ∈ st2.subdepts, sd ∈ st.subdepts ∧ sd.id ≠ subdeptId) := by
  have hTtruthy : optTruthy (some T) = true := by
    simp only [optTruthy, decide_eq_true_eq]
    omega
  refine ⟨⟨st.subdepts.filter (fun s => decide (s.id ≠ subdeptId)),
      st.users.map (fun u =>
        if u.subdepartment_id = some subdeptId then { u with subdepartment_id := some T }
        else u),
      st.tasks.map (fun tk =>
        if tk.subdepartment_id = some subdeptId then { tk with subdepartment_id := some T }
        else tk)⟩, ?_, ?_, ?_, ?_, ?_, ?_, ?_⟩
  · simp only [delete_subdepartment, hfind, hTtruthy, Bool.not_true, Bool.and_false]
    rw [if_neg (by simp)]
    rw [if_pos (by omega : T ≠ 0)]
    rw [hTfind]
  · intro u hu
    simp only [List.mem_map] at hu
    obtain ⟨u0, _, rfl⟩ := hu
    by_cases h : u0.subdepartment_id = some subdeptId
    · rw [if_pos h]
      simp
      omega
    · rw [if_neg h]
      exact h
  · intro tk htk
    simp only [List.mem_map] at htk
    obtain ⟨t0, _, rfl⟩ := htk
    by_cases h : t0.subdepartment_id = some subdeptId
    · rw [if_pos h]
      simp
      omega
    · rw [if_neg h]
      exact h
  · rw [List.forall₂_map_right_iff, List.forall₂_same]
    intro u _
    by_cases h : u.subdepartment_id = some subdeptId
    · exact Or.inl ⟨h, by rw [if_pos h]⟩
    · exact Or.inr ⟨h, by rw [if_neg h]⟩
  · rw [List.forall₂_map_right_iff, List.forall₂_same]
    intro tk _
    by_cases h : tk.subdepartment_id = some subdeptId
    · exact Or.inl ⟨h, by rw [if_pos h]⟩
    · exact Or.inr ⟨h, by rw [if_neg h]⟩
  · intro sd hsd hne
    simp only [List.mem_filter]
    exact ⟨hsd, by simpa using hne⟩
  · intro sd hsd
    simp only [List.mem_filter] at hsd
    exact ⟨hsd.1, by simpa using hsd.2⟩

/-- Witness for C4: delete node 1 reassigning its user and task to node
2; node 3 (a child of 1) keeps its `parent_id`. -/
theorem C4_delete_reassign_witness :
    ∃ st2, delete_subdepartment
        ⟨[⟨1, 10, none⟩, ⟨2, 10, none⟩, ⟨3, 10, some 1⟩], [⟨7, some 1⟩, ⟨8, some 2⟩],
          [⟨5, some 1⟩]⟩ 10 1 (some 2) = ⟨200, st2⟩ ∧
      (∀ u ∈ st2.users, u.subdepartment_id ≠ some 1) ∧
      (∀ tk ∈ st2.tasks, tk.subdepartment_id ≠ some 1) ∧
      List.Forall₂ (fun old new : DUser =>
        (old.subdepartment_id = some 1 ∧ new = { old with subdepartment_id := some 2 }) ∨
        (old.subdepartment_id ≠ some 1 ∧ new = old))
        [⟨7, some 1⟩, ⟨8, some 2⟩] st2.users ∧
      List.Forall₂ (fun old new : DTask =>
        (old.subdepartment_id = some 1 ∧ new = { old with subdepartment_id := some 2 }) ∨
        (old.subdepartment_id ≠ some 1 ∧ new = old)) [⟨5, some 1⟩] st2.tasks ∧
      (∀ sd ∈ [(⟨1, 10, none⟩ : Subdept), ⟨2, 10, none⟩, ⟨3, 10, some 1⟩],
        sd.id ≠ 1 → sd ∈ st2.subdepts) ∧
      (∀ sd ∈ st2.subdepts,
        sd ∈ [(⟨1, 10, none⟩ : Subdept), ⟨2, 10, none⟩, ⟨3, 10, some 1⟩] ∧ sd.id ≠ 1) :=
  C4_delete_reassign
    ⟨[⟨1, 10, none⟩, ⟨2, 10, none⟩, ⟨3, 10, some 1⟩], [⟨7, some 1⟩, ⟨8, some 2⟩],
      [⟨5, some 1⟩]⟩ 10 1 2 ⟨1, 10, none⟩ ⟨2, 10, none⟩
    (by decide) (by decide) (by decide) (by decide)

/-- C5.  Deleting an existing subdepartment without a reassignment target
fails with Conflict (400) exactly when the node has at least one direct
member or at least one direct task; with neither, the delete succeeds. -/
theorem C5_delete_conflict_iff (st : OrgState) (userDept subdeptId : Nat)
    (s : Subdept)
    (hfind : st.subdepts.find? (fun s => decide (s.id = subdeptId ∧ s.department_id = userDept)) = some s) :
    ((delete_subdepartment st userDept subdeptId none).code = 400 ↔
      (∃ u ∈ st.users, u.subdepartment_id = some subdeptId) ∨
      (∃ tk ∈ st.tasks, tk.subdepartment_id = some subdeptId)) ∧
    (¬((∃ u ∈ st.users, u.subdepartment_id = some subdeptId) ∨
        (∃ tk ∈ st.tasks, tk.subdepartment_id = some subdeptId)) →
      (delete_subdepartment st userDept subdeptId none).code = 200) := by
  have hdep : (st.users.any (fun u => decide (u.subdepartment_id = some subdeptId)) ||
      st.tasks.any (fun t => decide (t.subdepartment_id = some subdeptId))) = true ↔
      (∃ u ∈ st.users, u.subdepartment_id = some subdeptId) ∨
      (∃ tk ∈ st.tasks, tk.subdepartment_id = some subdeptId) := by
    simp [List.any_eq_true]
  by_cases h : (st.users.any (fun u => decide (u.subdepartment_id = some subdeptId)) ||
      st.tasks.any (fun t => decide (t.subdepartment_id = some subdeptId))) = true
  · have hrun : delete_subdepartment st userDept subdeptId none = ⟨400, st⟩ := by
      simp only [delete_subdepartment, hfind,
        show optTruthy none = false from rfl, Bool.not_false, Bool.and_true, h,
        if_true]
    constructor
    · rw [hrun]
      exact ⟨fun _ => hdep.mp h, fun _ => rfl⟩
    · intro hno
      exact absurd (hdep.mp h) hno
  · have hF : (st.users.any (fun u => decide (u.subdepartment_id = some subdeptId)) ||
        st.tasks.any (fun t => decide (t.subdepartment_id = some subdeptId))) = false :=
      Bool.eq_false_iff.mpr h
    have hrun : delete_subdepartment st userDept subdeptId none =
        ⟨200, { st with subdepts := st.subdepts.filter (fun s => decide (s.id ≠ subdeptId)) }⟩ := by
      simp only [delete_subdepartment, hfind,
        show optTruthy none = false from rfl, Bool.not_false, Bool.and_true, hF,
        if_false]
      rfl
    constructor
    · rw [hrun]
      constructor
      · intro habs
        exact absurd habs (by simp)
      · intro hyes
        exact absurd (hdep.mpr hyes) h
    · intro _
      rw [hrun]

/-- Witness for C5: a node with one direct member is rejected with 400;
an empty node is deleted with 200. -/
theorem C5_delete_conflict_iff_witness :
    (((delete_subdepartment ⟨[⟨1, 10, none⟩], [⟨7, some 1⟩], []⟩ 10 1 none).code = 400 ↔
      (∃ u ∈ [(⟨7, some 1⟩ : DUser)], u.subdepartment_id = some 1) ∨
      (∃ tk ∈ ([] : List DTask), tk.subdepartment_id = some 1)) ∧
    (¬((∃ u ∈ [(⟨7, some 1⟩ : DUser)], u.subdepartment_id = some 1) ∨
        (∃ tk ∈ ([] : List DTask), tk.subdepartment_id = some 1)) →
      (delete_subdepartment ⟨[⟨1, 10, none⟩], [⟨7, some 1⟩], []⟩ 10 1 none).code = 200)) ∧
    (((delete_subdepartment ⟨[⟨1, 10, none⟩], [], []⟩ 10 1 none).code = 400 ↔
      (∃ u ∈ ([] : List DUser), u.subdepartment_id = some 1) ∨
      (∃ tk ∈ ([] : List DTask), tk.subdepartment_id = some 1)) ∧
    (¬((∃ u ∈ ([] : List DUser), u.subdepartment_id = some 1) ∨
        (∃ tk ∈ ([] : List DTask), tk.subdepartment_id = some 1)) →
      (delete_subdepartment ⟨[⟨1, 10, none⟩], [], []⟩ 10 1 none).code = 200)) :=
  ⟨C5_delete_conflict_iff ⟨[⟨1, 10, none⟩], [⟨7, some 1⟩], []⟩ 10 1 ⟨1, 10, none⟩ (by decide),
   C5_delete_conflict_iff ⟨[⟨1, 10, none⟩], [], []⟩ 10 1 ⟨1, 10, none⟩ (by decide)⟩

/-- C2 counterexample.  The claim asserts that a mutating TaskAssignment
update is accepted only when the caller's version equals the stored
version, failing with Conflict (409) on a mismatch.  Here the stored
version is 5, the payload presents version 3, and the full update is
nevertheless accepted (200) with the stored version bumped to 6 — no
endpoint ever compares the caller's version. -/
theorem C2_version_check_counterexample :
    update_task_assignment
        [⟨1, 7, 9, AStatus.toDo, 0, none, none, none, 5, 0⟩] 1
        ⟨7, 9, AStatus.toDo, 0, none, none, none, 3⟩ 50 =
      ⟨200, [⟨1, 7, 9, AStatus.toDo, 0, none, none, none, 6, 50⟩]⟩ := by
  decide

/-- C2 as amended.  Every mutating TaskAssignment update (full update,
status update, progress update) is accepted whenever the row exists,
regardless of any version the caller presents (the payload's `version` is
ignored; the status and progress endpoints accept none at all); on success
the stored version becomes stored + 1; a version mismatch never produces a
Conflict. -/
theorem C2_version_increment_amended (db : List Assignment) (aid : Nat)
    (p : AssignmentPayload) (st : AStatus) (prog : Int) (now : Nat)
    (cur : Assignment)
    (hfind : db.find? (fun a => decide (a.id = aid)) = some cur)
    (hprog : 0 ≤ prog ∧ prog ≤ 100) :
    ((update_task_assignment db aid p now).code = 200 ∧
      ∀ a ∈ (update_task_assignment db aid p now).state,
        a.id = aid → a.version = cur.version + 1) ∧
    ((update_assignment_status db aid st now).code = 200 ∧
      ∀ a ∈ (update_assignment_status db aid st now).state,
        a.id = aid → a.version = cur.version + 1) ∧
    ((update_assignment_progress db aid prog now).code = 200 ∧
      ∀ a ∈ (update_assignment_progress db aid prog now).state,
        a.id = aid → a.version = cur.version + 1) := by
  refine ⟨⟨?_, ?_⟩, ⟨?_, ?_⟩, ⟨?_, ?_⟩⟩
  · simp only [update_task_assignment, hfind]
  · simp only [update_task_assignment, hfind]
    intro a ha haid
    simp only [List.mem_map] at ha
    obtain ⟨a0, _, rfl⟩ := ha
    by_cases h0 : a0.id = aid
    · simp only [if_pos h0]
    · rw [if_neg h0] at haid
      exact absurd haid h0
  · simp only [update_assignment_status, hfind]
  · simp only [update_assignment_status, hfind]
    intro a ha haid
    simp only [List.mem_map] at ha
    obtain ⟨a0, _, rfl⟩ := ha
    by_cases h0 : a0.id = aid
    · simp only [if_pos h0]
    · rw [if_neg h0] at haid
      exact absurd haid h0
  · simp only [update_assignment_progress, if_neg (not_not_intro hprog), hfind]
  · simp only [update_assignment_progress, if_neg (not_not_intro hprog), hfind]
    intro a ha haid
    simp only [List.mem_map] at ha
    obtain ⟨a0, _, rfl⟩ := ha
    by_cases h0 : a0.id = aid
    · simp only [if_pos h0]
    · rw [if_neg h0] at haid
      exact absurd haid h0

/-- Witness for the amended C2 at a concrete row with stored version 5: all
three operations succeed and store version 6. -/
theorem C2_version_increment_amended_witness :
    ((update_task_assignment [⟨1, 7, 9, AStatus.toDo, 0, none, none, none, 5, 0⟩] 1
        ⟨7, 9, AStatus.toDo, 0, none, none, none, 3⟩ 50).code = 200 ∧
      ∀ a ∈ (update_task_assignment [⟨1, 7, 9, AStatus.toDo, 0, none, none, none, 5, 0⟩] 1
        ⟨7, 9, AStatus.toDo, 0, none, none, none, 3⟩ 50).state,
        a.id = 1 → a.version = (⟨1, 7, 9, AStatus.toDo, 0, none, none, none, 5, 0⟩ : Assignment).version + 1) ∧
    ((update_assignment_status [⟨1, 7, 9, AStatus.toDo, 0, none, none, none, 5, 0⟩] 1
        AStatus.completed 50).code = 200 ∧
      ∀ a ∈ (update_assignment_status [⟨1, 7, 9, AStatus.toDo, 0, none, none, none, 5, 0⟩] 1
        AStatus.completed 50).state,
        a.id = 1 → a.version = (⟨1, 7, 9, AStatus.toDo, 0, none, none, none, 5, 0⟩ : Assignment).version + 1) ∧
    ((update_assignment_progress [⟨1, 7, 9, AStatus.toDo, 0, none, none, none, 5, 0⟩] 1
        40 50).code = 200 ∧
      ∀ a ∈ (update_assignment_progress [⟨1, 7, 9, AStatus.toDo, 0, none, none, none, 5, 0⟩] 1
        40 50).state,
        a.id = 1 → a.version = (⟨1, 7, 9, AStatus.toDo, 0, none, none, none, 5, 0⟩ : Assignment).version + 1) :=
  C2_version_increment_amended [⟨1, 7, 9, AStatus.toDo, 0, none, none, none, 5, 0⟩] 1
    ⟨7, 9, AStatus.toDo, 0, none, none, none, 3⟩ AStatus.completed 40 50
    ⟨1, 7, 9, AStatus.toDo, 0, none, none, none, 5, 0⟩ (by decide) (by decide)

/-- C3 counterexample.  The claim covers every status-update operation, but
the task-level one (`update_task_status`) overwrites an already-set
`completed_at` (100 becomes 200) on a repeated Completed, and the
assignment's version does not increment (stays 1). -/
theorem C3_completed_at_counterexample :
    update_task_status [⟨1, Priority.medium, 1, 0⟩]
        [⟨1, 1, 9, AStatus.completed, 100, none, none, some 100, 1, 0⟩] 1
        AStatus.completed 200 =
      ⟨200, ([⟨1, Priority.medium, 2, 200⟩],
        [⟨1, 1, 9, AStatus.completed, 100, none, none, some 200, 1, 200⟩])⟩ := by
  decide

/-- C3 as amended.  For the per-assignment status endpoint
(`update_assignment_status`), an already-set `completed_at` is never
overwritten by a repeated Completed, an already-set `started_at` is never
overwritten by a repeated In Progress, and the version increments on every
call; the task-level `update_task_status`, by contrast, overwrites
`completed_at` unconditionally and leaves assignment versions untouched
(see the counterexample). -/
theorem C3_timestamp_preserved_amended (db : List Assignment)
    (aid now t : Nat) (cur : Assignment)
    (hid : (db.map (fun a => a.id)).Nodup)
    (hfind : db.find? (fun a => decide (a.id = aid)) = some cur) :
    (cur.completed_at = some t →
      (update_assignment_status db aid AStatus.completed now).code = 200 ∧
      ∀ a ∈ (update_assignment_status db aid AStatus.completed now).state,
        a.id = aid → a.completed_at = some t ∧ a.version = cur.version + 1) ∧
    (cur.started_at = some t →
      (update_assignment_status db aid AStatus.inProgress now).code = 200 ∧
      ∀ a ∈ (update_assignment_status db aid AStatus.inProgress now).state,
        a.id = aid → a.started_at = some t ∧ a.version = cur.version + 1) := by
  have hdec0 := find?_decode hfind
  have hcurmem : cur ∈ db := hdec0.1
  have hcurid : cur.id = aid := hdec0.2
  constructor
  · intro hc
    refine ⟨by simp only [update_assignment_status, hfind], ?_⟩
    simp only [update_assignment_status, hfind]
    intro a ha haid
    simp only [List.mem_map] at ha
    obtain ⟨a0, ha0, rfl⟩ := ha
    by_cases h0 : a0.id = aid
    · have ha0cur : a0 = cur :=
        List.inj_on_of_nodup_map hid ha0 hcurmem (h0.trans hcurid.symm)
      subst ha0cur
      simp only [if_pos h0]
      refine ⟨?_, by trivial⟩
      rw [if_neg (by simp [hc])]
      exact hc
    · rw [if_neg h0] at haid
      exact absurd haid h0
  · intro hs
    refine ⟨by simp only [update_assignment_status, hfind], ?_⟩
    simp only [update_assignment_status, hfind]
    intro a ha haid
    simp only [List.mem_map] at ha
    obtain ⟨a0, ha0, rfl⟩ := ha
    by_cases h0 : a0.id = aid
    · have ha0cur : a0 = cur :=
        List.inj_on_of_nodup_map hid ha0 hcurmem (h0.trans hcurid.symm)
      subst ha0cur
      simp only [if_pos h0]
      refine ⟨?_, by trivial⟩
      rw [if_neg (by simp [hs])]
      exact hs
    · rw [if_neg h0] at haid
      exact absurd haid h0

/-- Witness for the amended C3: a row with both timestamps already set;
repeated Completed keeps `completed_at = 100`, repeated In Progress keeps
`started_at = 7`, versions increment. -/
theorem C3_timestamp_preserved_amended_witness :
    ((⟨1, 1, 9, AStatus.completed, 100, none, some 7, some 100, 4, 0⟩ : Assignment).completed_at = some 100 →
      (update_assignment_status [⟨1, 1, 9, AStatus.completed, 100, none, some 7, some 100, 4, 0⟩] 1
        AStatus.completed 200).code = 200 ∧
      ∀ a ∈ (update_assignment_status [⟨1, 1, 9, AStatus.completed, 100, none, some 7, some 100, 4, 0⟩] 1
        AStatus.completed 200).state,
        a.id = 1 → a.completed_at = some 100 ∧
          a.version = (⟨1, 1, 9, AStatus.completed, 100, none, some 7, some 100, 4, 0⟩ : Assignment).version + 1) ∧
    ((⟨1, 1, 9, AStatus.completed, 100, none, some 7, some 100, 4, 0⟩ : Assignment).started_at = some 100 →
      (update_assignment_status [⟨1, 1, 9, AStatus.completed, 100, none, some 7, some 100, 4, 0⟩] 1
        AStatus.inProgress 200).code = 200 ∧
      ∀ a ∈ (update_assignment_status [⟨1, 1, 9, AStatus.completed, 100, none, some 7, some 100, 4, 0⟩] 1
        AStatus.inProgress 200).state,
        a.id = 1 → a.started_at = some 100 ∧
          a.version = (⟨1, 1, 9, AStatus.completed, 100, none, some 7, some 100, 4, 0⟩ : Assignment).version + 1) :=
  C3_timestamp_preserved_amended [⟨1, 1, 9, AStatus.completed, 100, none, some 7, some 100, 4, 0⟩]
    1 200 100 ⟨1, 1, 9, AStatus.completed, 100, none, some 7, some 100, 4, 0⟩
    (by decide) (by decide)

/-- C7 counterexample.  The claim asserts that every status written through
the standard status-update operation simultaneously sets the derived
progress.  The per-assignment status endpoint cited by the claim does not
touch progress: setting Completed leaves progress at 0 instead of 100. -/
theorem C7_progress_counterexample :
    update_assignment_status [⟨1, 1, 9, AStatus.toDo, 0, none, none, none, 1, 0⟩] 1
        AStatus.completed 50 =
      ⟨200, [⟨1, 1, 9, AStatus.completed, 0, none, none, some 50, 2, 50⟩]⟩ := by
  decide

/-- C7 as amended.  The derived mapping ToDo→0, InProgress→25,
UnderReview→75, Completed→100 is applied by the task-level status update,
which writes both the status and the derived progress to every assignment
of the task; the per-assignment status endpoint leaves progress untouched;
a direct progress update (0–100) writes exactly the requested progress and
never changes any status. -/
theorem C7_progress_amended (tasks : List Task) (asgs db : List Assignment)
    (taskId aid now : Nat) (st : AStatus) (prog : Int)
    (tk : Task) (cur : Assignment)
    (hfindT : tasks.find? (fun t => decide (t.id = taskId)) = some tk)
    (hfindA : db.find? (fun a => decide (a.id = aid)) = some cur)
    (hprog : 0 ≤ prog ∧ prog ≤ 100) :
    (statusProgress AStatus.toDo = 0 ∧ statusProgress AStatus.inProgress = 25 ∧
      statusProgress AStatus.underReview = 75 ∧ statusProgress AStatus.completed = 100) ∧
    (∀ a ∈ (update_task_status tasks asgs taskId st now).state.2,
      a.task_id = taskId → a.status = st ∧ a.progress = statusProgress st) ∧
    ((update_assignment_status db aid st now).state.map (fun a => a.progress) =
      db.map (fun a => a.progress)) ∧
    ((update_assignment_progress db aid prog now).state.map (fun a => a.status) =
       db.map (fun a => a.status) ∧
     (update_assignment_progress db aid prog now).code = 200 ∧
     ∀ a ∈ (update_assignment_progress db aid prog now).state,
       a.id = aid → a.progress = prog) := by
  refine ⟨⟨rfl, rfl, rfl, rfl⟩, ?_, ?_, ?_, ?_, ?_⟩
  · simp only [update_task_status, hfindT]
    intro a ha haid
    simp only [List.mem_map] at ha
    obtain ⟨a0, _, rfl⟩ := ha
    by_cases h0 : a0.task_id = taskId
    · simp only [if_pos h0]
      exact ⟨by trivial, by trivial⟩
    · rw [if_neg h0] at haid
      exact absurd haid h0
  · simp only [update_assignment_status, hfindA, List.map_map]
    apply List.map_congr_left
    intro a0 _
    by_cases h0 : a0.id = aid
    · simp only [Function.comp_apply, if_pos h0]
    · simp only [Function.comp_apply, if_neg h0]
  · simp only [update_assignment_progress, if_neg (not_not_intro hprog), hfindA,
      List.map_map]
    apply List.map_congr_left
    intro a0 _
    by_cases h0 : a0.id = aid
    · simp only [Function.comp_apply, if_pos h0]
    · simp only [Function.comp_apply, if_neg h0]
  · simp only [update_assignment_progress, if_neg (not_not_intro hprog), hfindA]
  · simp only [update_assignment_progress, if_neg (not_not_intro hprog), hfindA]
    intro a ha haid
    simp only [List.mem_map] at ha
    obtain ⟨a0, _, rfl⟩ := ha
    by_cases h0 : a0.id = aid
    · simp only [if_pos h0]
    · rw [if_neg h0] at haid
      exact absurd haid h0

/-- Witness for the amended C7 at a concrete task with one assignment. -/
theorem C7_progress_amended_witness :
    (statusProgress AStatus.toDo = 0 ∧ statusProgress AStatus.inProgress = 25 ∧
      statusProgress AStatus.underReview = 75 ∧ statusProgress AStatus.completed = 100) ∧
    (∀ a ∈ (update_task_status [⟨1, Priority.low, 1, 0⟩]
        [⟨1, 1, 9, AStatus.toDo, 0, none, none, none, 1, 0⟩] 1 AStatus.underReview 50).state.2,
      a.task_id = 1 → a.status = AStatus.underReview ∧
        a.progress = statusProgress AStatus.underReview) ∧
    ((update_assignment_status [⟨1, 1, 9, AStatus.toDo, 0, none, none, none, 1, 0⟩] 1
        AStatus.underReview 50).state.map (fun a => a.progress) =
      [⟨1, 1, 9, AStatus.toDo, 0, none, none, none, 1, 0⟩].map
        (fun a : Assignment => a.progress)) ∧
    ((update_assignment_progress [⟨1, 1, 9, AStatus.toDo, 0, none, none, none, 1, 0⟩] 1
        60 50).state.map (fun a => a.status) =
       [⟨1, 1, 9, AStatus.toDo, 0, none, none, none, 1, 0⟩].map
         (fun a : Assignment => a.status) ∧
     (update_assignment_progress [⟨1, 1, 9, AStatus.toDo, 0, none, none, none, 1, 0⟩] 1
        60 50).code = 200 ∧
     ∀ a ∈ (update_assignment_progress [⟨1, 1, 9, AStatus.toDo, 0, none, none, none, 1, 0⟩] 1
        60 50).state,
       a.id = 1 → a.progress = 60) :=
  C7_progress_amended [⟨1, Priority.low, 1, 0⟩]
    [⟨1, 1, 9, AStatus.toDo, 0, none, none, none, 1, 0⟩]
    [⟨1, 1, 9, AStatus.toDo, 0, none, none, none, 1, 0⟩] 1 1 50
    AStatus.underReview 60 ⟨1, Priority.low, 1, 0⟩
    ⟨1, 1, 9, AStatus.toDo, 0, none, none, none, 1, 0⟩
    (by decide) (by decide) (by decide)

/-- C8.  The efficiency score equals the claim's formula: over the
assignments with both timestamps set (all with positive actual duration, so
the claimed quotient is defined), `efficiency = min(432000 / actual, 2)`,
`weighted = efficiency * {Critical:4, High:3, Medium:2, Low:1}`, score
`= mean(weighted) * 25`, and `0` when no assignment qualifies.  In
particular one Critical assignment with actual duration 216000 s scores
exactly 200. -/
theorem C8_efficiency_score (l : List EffAssignment)
    (hpos : l.all effPositive = true) :
    calculate_efficiency_score l = specEfficiencyScore l ∧
    (l.filterMap effScoreOf = [] → calculate_efficiency_score l = 0) ∧
    calculate_efficiency_score [⟨some 0, some 216000, Priority.critical⟩] = 200 := by
  have hkey : l.filterMap effScoreOf = l.filterMap specEffWeighted := by
    induction l with
    | nil => rfl
    | cons a as ih =>
      rw [List.all_cons, Bool.and_eq_true] at hpos
      have hhead : effScoreOf a = specEffWeighted a := by
        unfold effScoreOf specEffWeighted
        cases hca : a.completed_at with
        | none => rfl
        | some c =>
          cases hsa : a.started_at with
          | none => rfl
          | some s =>
            have hlt : s < c := by
              have hp := hpos.1
              unfold effPositive at hp
              rw [hca, hsa] at hp
              exact of_decide_eq_true hp
            have hdur : (0 : ℚ) < c - s := sub_pos.mpr hlt
            simp only [if_pos hdur]
      rw [List.filterMap_cons, List.filterMap_cons, hhead, ih hpos.2]
  refine ⟨?_, ?_, ?_⟩
  · unfold calculate_efficiency_score specEfficiencyScore
    cases l with
    | nil => simp
    | cons a as =>
      simp only [List.isEmpty_cons, Bool.false_eq_true, if_false, hkey]
  · intro hempty
    unfold calculate_efficiency_score
    cases l with
    | nil => simp
    | cons a as =>
      simp only [List.isEmpty_cons, Bool.false_eq_true, if_false]
      rw [hempty]
      simp
  · norm_num [calculate_efficiency_score, effScoreOf, priorityWeight, List.filterMap]

/-- Witness for C8: the claim's own scenario — one Critical assignment,
started at 0, completed at 216000. -/
theorem C8_efficiency_score_witness :
    calculate_efficiency_score [⟨some 0, some 216000, Priority.critical⟩] =
      specEfficiencyScore [⟨some 0, some 216000, Priority.critical⟩] ∧
    ([(⟨some 0, some 216000, Priority.critical⟩ : EffAssignment)].filterMap effScoreOf = [] →
      calculate_efficiency_score [⟨some 0, some 216000, Priority.critical⟩] = 0) ∧
    calculate_efficiency_score [⟨some 0, some 216000, Priority.critical⟩] = 200 :=
  C8_efficiency_score [⟨some 0, some 216000, Priority.critical⟩] (by decide)

/-- C9.  The workload score equals the claim's formula:
`base = min(active * 10, 100)`, `weight_factor = min(load / active, 2)`
with the load summing `{Critical:3, High:2, Medium:1, Low:0}` over the
user's active (To Do / In Progress) assignments, `score = base * factor`,
and `0` when the active count is 0; the scenario `active = 3, load = 5`
scores exactly 50. -/
theorem C9_workload_score (a w : Nat) (l : List WAssignment) :
    calculate_workload_score a w = specWorkloadScore a w ∧
    get_workload_distribution_score l =
      specWorkloadScore (activeAssignments l).length (weighted_load l) ∧
    calculate_workload_score 0 w = 0 ∧
    calculate_workload_score 3 5 = 50 := by
  have hgen : ∀ a w : Nat, calculate_workload_score a w = specWorkloadScore a w := by
    intro a w
    simp only [calculate_workload_score, specWorkloadScore]
    by_cases h : a = 0
    · subst h
      rw [if_pos rfl]
      simp only [lt_irrefl, if_false]
      rw [min_eq_left (by norm_num : (0 : ℚ) ≤ 2), mul_zero]
    · have hpos : 0 < a := Nat.pos_of_ne_zero h
      rw [if_neg h, if_pos hpos]
  refine ⟨hgen a w, ?_, ?_, ?_⟩
  · unfold get_workload_distribution_score
    exact hgen _ _
  · rw [hgen 0 w]
    rw [specWorkloadScore, if_pos rfl]
  · norm_num [calculate_workload_score]

/-- C10 counterexample.  The claim says the change-over-period helper
rounds to the nearest integer; the code converts with `int()`, which
truncates toward zero: for `(current, previous) = (5, 3)` the code returns
66 while the claimed formula returns `round(200/3) = 67`. -/
theorem C10_change_round_counterexample :
    calc_change 5 3 = 66 ∧ specChangeRound 5 3 = 67 ∧
      calc_change 5 3 ≠ specChangeRound 5 3 := by
  refine ⟨?_, ?_, ?_⟩
  · norm_num [calc_change, ratTrunc]
  · norm_num [specChangeRound, round_eq]
  · norm_num [calc_change, ratTrunc, specChangeRound, round_eq]

/-- C10 as amended.  For every pair of integers, the helper returns 100
when `previous = 0 < current`, 0 when both are 0 (or `current ≤ 0`), and
otherwise the t-division (truncation toward zero, Python `int()`) of
`(current - previous) * 100` by `previous` — not the nearest-integer
rounding the claim states. -/
theorem C10_change_trunc_amended (current previous : ℤ) :
    calc_change current previous = specChangeTrunc current previous := by
  unfold calc_change specChangeTrunc
  by_cases hp : previous = 0
  · rw [if_pos hp, if_pos hp]
  · rw [if_neg hp, if_neg hp]
    have h : ((current : ℚ) - (previous : ℚ)) / (previous : ℚ) * 100 =
        (((current - previous) * 100 : ℤ) : ℚ) / ((previous : ℤ) : ℚ) := by
      push_cast
      ring
    rw [h, ratTrunc_intCast_div _ _ hp]

end TaskFlow
